import Mathlib

/-!
Verification of the Cartesian structured-mesh generator (`snake/cartesianMesh.py`).

The Python code is shallowly embedded over exact rationals: every Python float
literal (0.1, 1.0E-06, …) is modelled by the rational it denotes, and float
arithmetic by exact rational arithmetic.  The one genuinely transcendental
quantity in the source, the quotient

    log(1 - length/width*(1 - ratio)) / log(ratio)

(the same expression appears, up to commuting one multiplication, in
`Segment.get_vertices`, `Segment.compute_stretch_ratio` and
`Segment.compute_optimal_stretch_ratio`), is a parameter `lq : ℚ → ℚ → ℚ → ℚ`
of the embedding: the floating-point value of that quotient is itself some
rational, and every definition below is a function of it.  Concrete runs
instantiate `lq` with an explicit rational model of the float value, and the
counterexamples that depend on the quotient's integer rounding carry interval
bounds on the corresponding real logarithms showing that any model accurate to
well below 0.9 takes the same branch.

File I/O is modelled by its payload: the grid file written by
`CartesianStructuredMesh.write` is the pair (header division counts, flat list
of vertex coordinates); `numpy.savetxt`/`numpy.loadtxt` round-trip each float
exactly, so reading the file back yields exactly the written rationals.
-/

namespace CartesianMesh

attribute [local semireducible] Rat.add Rat.mul Rat.sub Rat.inv

/-- Python 2 `round` (half away from zero), composed with `int(...)`: the source
always uses it as `int(round(x))`. -/
def pyRound (x : ℚ) : ℤ :=
  if 0 ≤ x then ⌊x + 1/2⌋ else -⌊-x + 1/2⌋

/-- Python `int(...)` applied to a float: truncation toward zero. -/
def pyTrunc (x : ℚ) : ℤ :=
  if 0 ≤ x then ⌊x⌋ else ⌈x⌉

/-- `numpy.round` ties-to-even rounding of a rational to the nearest integer. -/
def roundHalfEven (x : ℚ) : ℤ :=
  if x - ⌊x⌋ < 1/2 then ⌊x⌋
  else if 1/2 < x - ⌊x⌋ then ⌊x⌋ + 1
  else if 2 ∣ ⌊x⌋ then ⌊x⌋ else ⌊x⌋ + 1

/-- `numpy.round(x, p)`: round to `p` decimal places (ties to even). -/
def npRoundTo (p : ℕ) (x : ℚ) : ℚ :=
  (roundHalfEven (x * 10 ^ p) : ℚ) / 10 ^ p

/-- `numpy.arange(start, stop, step)` for a positive step: the values
`start + i*step` for `0 ≤ i < ⌈(stop - start)/step⌉`. -/
def arange (start stop step : ℚ) : List ℚ :=
  (List.range (⌈(stop - start) / step⌉).toNat).map (fun i : ℕ => start + (i : ℚ) * step)

/-- Running sums of a list (`numpy.cumsum`), starting from `acc`. -/
def cumsumFrom (acc : ℚ) : List ℚ → List ℚ
  | [] => []
  | x :: xs => (acc + x) :: cumsumFrom (acc + x) xs

/-- `numpy.cumsum`. -/
def cumsum (l : List ℚ) : List ℚ := cumsumFrom 0 l

/-- The division widths of a stretched segment: `widths[0] = width`,
`widths[1:] = ratio`, then `numpy.cumprod`, giving `width * ratio^i`. -/
def stretchWidths (width ratio : ℚ) (n : ℕ) : List ℚ :=
  (List.range n).map (fun i => width * ratio ^ i)

/-- The helper `geometric_sum(a, r, n) = a*(1.0-r**n)/(1.0-r)` of
`Segment.compute_optimal_stretch_ratio` (`n` may be any integer; `r**n` is a
float power, i.e. `zpow`). -/
def geometric_sum (a r : ℚ) (n : ℤ) : ℚ :=
  a * (1 - r ^ n) / (1 - r)

/-- `numpy.unique`: sort ascending and drop duplicate values. -/
def uniqueSorted (l : List ℚ) : List ℚ :=
  (List.insertionSort (· ≤ ·) l).dedup

/-- `abs(Decimal(str(ratio)).as_tuple().exponent)` for a float whose `str` is
its (shortest) decimal representation: the number of digits after the decimal
point.  `str` of a whole-valued float still shows one decimal ("2.0"), hence
the `max 1`.  Rationals needing more than 400 decimal digits do not arise from
float literals. -/
def literalDecimalDigits (q : ℚ) : ℕ :=
  max 1 (((List.range 400).find? (fun d => (q * 10 ^ d).den = 1)).getD 400)

/-- A segment as the grid-file reader rebuilds it: only its vertices.  The
generation path stores further attributes; the claims about whole-mesh
round-trips depend only on the vertices, which both paths store. -/
structure Segment where
  vertices : List ℚ
deriving DecidableEq, Repr

/-- `self.nb_divisions = self.vertices.size - 1` (an `int` in Python: it is
`-1` for an empty vertex array, so the model uses `ℤ`). -/
def Segment.nb_divisions (s : Segment) : ℤ :=
  (s.vertices.length : ℤ) - 1

/-- The state `Segment.get_vertices` leaves behind: the returned vertex array
and the `aspect_ratio` and `stretch_ratio` attributes after the call (the
reverse branch overwrites `stretch_ratio` with its reciprocal). -/
structure VertexResult where
  vertices : List ℚ
  aspect_ratio : ℚ
  stretch_ratio : ℚ
deriving DecidableEq, Repr

/-- `Segment.get_vertices` (cartesianMesh.py lines 66-104) as a function of the
segment's attributes.  `lq length width ratio` models the float value of
`log(1.0 - length/width*(1.0-ratio))/log(ratio)`.  `none` models the uniform
branch's `sys.exit` and, in the stretched branch, the `numpy` exception raised
by `numpy.empty(n)`/`widths[0]` when `n < 1`. -/
def Segment.get_vertices (lq : ℚ → ℚ → ℚ → ℚ) (start end_ width ratio : ℚ)
    (reverse : Bool) : Option VertexResult :=
  let length := |end_ - start|
  if |ratio - 1| < 1/10^6 then
    -- uniform discretization
    if |((pyRound (length / width) : ℤ) : ℚ) - length / width| > 1/10^12 then
      none
    else
      some ⟨arange start (end_ + width / 2) width, 1, ratio⟩
  else
    -- stretched discretization
    let n : ℤ := pyRound (lq length width ratio)
    if 1 ≤ n then
      let widths := stretchWidths width ratio n.toNat
      let aspect := widths.getLastD 0 / widths.headD 0
      if reverse then
        some ⟨(end_ :: (cumsum widths).map (fun c => end_ - c)).reverse, aspect, 1 / ratio⟩
      else
        some ⟨start :: (cumsum widths).map (fun c => start + c), aspect, ratio⟩
    else none

/-- The loop of `Segment.compute_stretch_ratio` (lines 164-175):
`while current_precision < precision`, with `k` the current digit level and
explicit fuel, since the loop need not terminate (the ratio-decrease branch
keeps the level unchanged).  `none` models exhausted fuel. -/
def csrLoop (lq : ℚ → ℚ → ℚ → ℚ) (length width aspect_ratio : ℚ) (precision : ℕ) :
    ℕ → ℕ → ℚ → Option ℚ
  | 0, _, _ => none
  | fuel + 1, k, r =>
    if k < precision then
      let n : ℤ := pyRound (lq length width r)
      if (r ^ (n - 1) : ℚ) < aspect_ratio then
        csrLoop lq length width aspect_ratio precision fuel (k + 1) (r + (1/10) ^ k)
      else
        csrLoop lq length width aspect_ratio precision fuel k (r - (1/10) ^ k)
    else some r

/-- `Segment.compute_stretch_ratio` (coarse search): start at digit level 1
and ratio 2.0. -/
def Segment.compute_stretch_ratio (lq : ℚ → ℚ → ℚ → ℚ) (start end_ width aspect_ratio : ℚ)
    (precision fuel : ℕ) : Option ℚ :=
  csrLoop lq |end_ - start| width aspect_ratio precision fuel 1 2

/-- The coarse-search loop as the specification's words describe it, running
the digit levels `k = 1 .. maxLevel` inclusive: identical body, but the loop
continues while `k ≤ maxLevel`. -/
def csrLoopLevels (lq : ℚ → ℚ → ℚ → ℚ) (length width aspect_ratio : ℚ) (maxLevel : ℕ) :
    ℕ → ℕ → ℚ → Option ℚ
  | 0, _, _ => none
  | fuel + 1, k, r =>
    if k ≤ maxLevel then
      let n : ℤ := pyRound (lq length width r)
      if (r ^ (n - 1) : ℚ) < aspect_ratio then
        csrLoopLevels lq length width aspect_ratio maxLevel fuel (k + 1) (r + (1/10) ^ k)
      else
        csrLoopLevels lq length width aspect_ratio maxLevel fuel k (r - (1/10) ^ k)
    else some r

/-- The coarse search as the claim states it: digit levels `k = 1 .. precision`. -/
def compute_stretch_ratio_claimed (lq : ℚ → ℚ → ℚ → ℚ) (start end_ width aspect_ratio : ℚ)
    (precision fuel : ℕ) : Option ℚ :=
  csrLoopLevels lq |end_ - start| width aspect_ratio precision fuel 1 2

/-- The coarse search amended: digit levels `k = 1 .. precision - 1`. -/
def compute_stretch_ratio_amended (lq : ℚ → ℚ → ℚ → ℚ) (start end_ width aspect_ratio : ℚ)
    (precision fuel : ℕ) : Option ℚ :=
  csrLoopLevels lq |end_ - start| width aspect_ratio (precision - 1) fuel 1 2

/-- The loop of `Segment.compute_optimal_stretch_ratio` (lines 234-245).  The
argument `rem` is `precision - precision_ratio`, which decreases by exactly one
each iteration (`precision_ratio += 1` runs unconditionally), so the `while`
loop runs exactly `rem` times; `k` is `precision_ratio` at entry to the body.
`n` is computed with `int(...)` — truncation, no rounding. -/
def cosrLoop (lq : ℚ → ℚ → ℚ → ℚ) (length width : ℚ) : ℕ → ℕ → ℚ → ℚ
  | 0, _, r => r
  | rem + 1, k, r =>
    let n : ℤ := pyTrunc (lq length width r)
    let deviation_inf := |length - geometric_sum width r n|
    let deviation_sup := |length - geometric_sum width r (n + 1)|
    if deviation_inf < deviation_sup then
      cosrLoop lq length width rem (k + 1) (r + (1/10) ^ (k + 1))
    else
      cosrLoop lq length width rem (k + 1) (r - (1/10) ^ (k + 1))

/-- `Segment.compute_optimal_stretch_ratio` (fine refinement). -/
def Segment.compute_optimal_stretch_ratio (lq : ℚ → ℚ → ℚ → ℚ)
    (start end_ width ratio : ℚ) (precision : ℕ) : ℚ :=
  cosrLoop lq |end_ - start| width (precision - literalDecimalDigits ratio)
    (literalDecimalDigits ratio) ratio

/-- The fine-refinement loop as the specification's words describe it:
`n = floor(log(1 - (1-ratio)*length/width)/log(ratio))`, everything else
identical. -/
def cosrLoopSpec (lq : ℚ → ℚ → ℚ → ℚ) (length width : ℚ) : ℕ → ℕ → ℚ → ℚ
  | 0, _, r => r
  | rem + 1, k, r =>
    let n : ℤ := ⌊lq length width r⌋
    let deviation_inf := |length - geometric_sum width r n|
    let deviation_sup := |length - geometric_sum width r (n + 1)|
    if deviation_inf < deviation_sup then
      cosrLoopSpec lq length width rem (k + 1) (r + (1/10) ^ (k + 1))
    else
      cosrLoopSpec lq length width rem (k + 1) (r - (1/10) ^ (k + 1))

/-- The fine refinement as the claim states it (floor instead of truncation). -/
def compute_optimal_stretch_ratio_spec (lq : ℚ → ℚ → ℚ → ℚ)
    (start end_ width ratio : ℚ) (precision : ℕ) : ℚ :=
  cosrLoopSpec lq |end_ - start| width (precision - literalDecimalDigits ratio)
    (literalDecimalDigits ratio) ratio

/-- `Segment.get_stretch_ratio` (lines 106-142): dispatch between the targeted
stretch ratio, the targeted aspect ratio (coarse then fine search) and the
uniform case. -/
def Segment.get_stretch_ratio (lq : ℚ → ℚ → ℚ → ℚ) (start end_ width : ℚ)
    (stretch_ratio aspect_ratio : ℚ) (precision fuel : ℕ) : Option ℚ :=
  if |stretch_ratio - 1| > 1/10^6 then
    some (Segment.compute_optimal_stretch_ratio lq start end_ width stretch_ratio precision)
  else if |aspect_ratio - 1| > 1/10^6 then
    (Segment.compute_stretch_ratio lq start end_ width aspect_ratio precision fuel).map
      (fun r => Segment.compute_optimal_stretch_ratio lq start end_ width r precision)
  else some 1

/-- One sub-domain mapping of the YAML input, after `GridLine.create_from_yaml_data`
has filled in the default values `reverse=False, precision=6, aspectRatio=1.0,
stretchRatio=1.0` for absent keys. -/
structure SubDomain where
  end_ : ℚ
  width : ℚ
  stretchRatio : ℚ := 1
  aspectRatio : ℚ := 1
  reverse : Bool := false
  precision : ℕ := 6
deriving Repr

/-- `Segment.create_from_yaml_data`: resolve the stretch ratio, then compute
the vertices. -/
def segmentFromData (lq : ℚ → ℚ → ℚ → ℚ) (fuel : ℕ) (start : ℚ) (d : SubDomain) :
    Option Segment :=
  (Segment.get_stretch_ratio lq start d.end_ d.width d.stretchRatio d.aspectRatio
      d.precision fuel).bind
    (fun r => (Segment.get_vertices lq start d.end_ d.width r d.reverse).map
      (fun res => ⟨res.vertices⟩))

/-- `Segment.__init__(vertices=vs)`: the guard `numpy.all(vertices)` is false
as soon as some vertex equals 0.0, the branch storing the vertices is skipped,
and the trailing `self.vertices.size` raises `AttributeError` (modelled by
`none`). -/
def segmentFromVertices (vs : List ℚ) : Option Segment :=
  if vs.all (fun v => v ≠ 0) then some ⟨vs⟩ else none

/-- A gridline: a direction label and its segments. -/
structure GridLine where
  label : Option String
  segments : List Segment
deriving DecidableEq, Repr

/-- `self.nb_divisions = sum(segment.nb_divisions for segment in self.segments)`. -/
def GridLine.nb_divisions (g : GridLine) : ℤ :=
  (g.segments.map Segment.nb_divisions).sum

/-- `GridLine.get_vertices(precision)`: round every segment's vertices to
`precision` decimals, concatenate, and `numpy.unique` (sort and deduplicate). -/
def GridLine.get_vertices (p : ℕ) (g : GridLine) : List ℚ :=
  uniqueSorted ((g.segments.map (fun s => s.vertices.map (npRoundTo p))).flatten)

/-- `GridLine.__init__(vertices=vs, label=label)`: the same `numpy.all` guard.
When it is false (some vertex is 0.0) no segment is created and the constructor
returns normally with `segments = []` and `nb_divisions = 0`; when it passes,
`create_from_vertices` reads `vertices[0]` (IndexError on an empty array,
modelled by `none`) and wraps the array in a single `Segment`. -/
def gridLineFromVertices (label : Option String) (vs : List ℚ) : Option GridLine :=
  if vs.all (fun v => v ≠ 0) then
    match vs with
    | [] => none
    | _ :: _ => (segmentFromVertices vs).map (fun seg => ⟨label, [seg]⟩)
  else some ⟨label, []⟩

/-- `GridLine.create_from_yaml_data`, segment list: the first sub-domain
starts at the gridline's `start`, every later one at the previous sub-domain's
`end`. -/
def segmentsFromData (lq : ℚ → ℚ → ℚ → ℚ) (fuel : ℕ) : ℚ → List SubDomain → Option (List Segment)
  | _, [] => some []
  | start, d :: ds =>
    (segmentFromData lq fuel start d).bind
      (fun seg => (segmentsFromData lq fuel d.end_ ds).map (fun segs => seg :: segs))

/-- `GridLine.__init__(data=...)`. -/
def gridLineFromData (lq : ℚ → ℚ → ℚ → ℚ) (fuel : ℕ) (direction : String) (start : ℚ)
    (subs : List SubDomain) : Option GridLine :=
  (segmentsFromData lq fuel start subs).map (fun segs => ⟨some direction, segs⟩)

/-- The mesh: an ordered list of gridlines. -/
structure CartesianStructuredMesh where
  gridlines : List GridLine
deriving DecidableEq, Repr

/-- `CartesianStructuredMesh.get_number_cells`:
`reduce(mul, nb_divisions, 1)` and the per-direction list. -/
def CartesianStructuredMesh.get_number_cells (m : CartesianStructuredMesh) : ℤ × List ℤ :=
  ((m.gridlines.map GridLine.nb_divisions).foldl (· * ·) 1,
   m.gridlines.map GridLine.nb_divisions)

/-- `CartesianStructuredMesh.create`: one gridline per direction entry, in
input order. -/
def CartesianStructuredMesh.create (lq : ℚ → ℚ → ℚ → ℚ) (fuel : ℕ)
    (data : List (String × ℚ × List SubDomain)) : Option CartesianStructuredMesh :=
  (data.mapM (fun node => gridLineFromData lq fuel node.1 node.2.1 node.2.2)).map
    (fun gs => ⟨gs⟩)

/-- `CartesianStructuredMesh.write(file_path, precision)`, modelled by the file
payload it produces: the header line of per-direction division counts, and the
flat list of every gridline's deduplicated rounded vertices in direction
order. -/
def CartesianStructuredMesh.write (p : ℕ) (m : CartesianStructuredMesh) :
    List ℤ × List ℚ :=
  (m.get_number_cells.2, (m.gridlines.map (GridLine.get_vertices p)).flatten)

/-- `numpy.split(data, numpy.cumsum(sizes))` followed by the implicit last
chunk: the first chunks have the given sizes (clipped, as numpy clips
out-of-range indices), the last chunk is whatever remains. -/
def splitCum : List ℕ → List ℚ → List (List ℚ)
  | [], l => [l]
  | s :: sizes, l => l.take s :: splitCum sizes (l.drop s)

/-- The reader's gridline loop: wrap each chunk as a vertex gridline labelled
from `['x', 'y', 'z']` by position (`IndexError`, i.e. `none`, past the third
direction). -/
def readGridLines : List (List ℚ) → List String → Option (List GridLine)
  | [], _ => some []
  | _ :: _, [] => none
  | c :: cs, lab :: labs =>
    (gridLineFromVertices (some lab) c).bind
      (fun g => (readGridLines cs labs).map (fun gs => g :: gs))

/-- `CartesianStructuredMesh.read(file_path)`: parse the header counts, split
the flat coordinate block at the cumulative `count+1` positions (the division
indices are `cumsum(nb_divisions[:-1] + 1)`, so the last chunk is the
remainder), and wrap each chunk as a single-segment gridline. -/
def CartesianStructuredMesh.read (counts : List ℤ) (data : List ℚ) :
    Option CartesianStructuredMesh :=
  (readGridLines (splitCum (counts.dropLast.map (fun n => (n + 1).toNat)) data)
      ["x", "y", "z"]).map
    (fun gs => ⟨gs⟩)

/-- The list `numpy.unique` is expected to return on the concatenation of
consecutive strictly increasing blocks that agree at their shared endpoints:
every block without its final (shared) vertex, then the last block whole. -/
def joinChain : List (List ℚ) → List ℚ
  | [] => []
  | [l] => l
  | l :: ls => l.dropLast ++ joinChain ls

/-- An `lq` model for runs that never reach the stretched logarithm (uniform
segments): the value is irrelevant and taken to be 0. -/
def lqZero : ℚ → ℚ → ℚ → ℚ := fun _ _ _ => 0

/-- A constant `lq` model, for exercising the loops at a chosen quotient
value. -/
def lqConst (c : ℚ) : ℚ → ℚ → ℚ → ℚ := fun _ _ _ => c

/-- A rational model of the float quotient `log(1 - length/width*(1-ratio))/log(ratio)`
for the concrete runs below, which consult it only at
`(length, width, ratio) = (1, 1/10, 2)`, where the quantity is
`log(1 - 10*(1-2))/log 2 = log 11 / log 2 = 3.4594316186372973…` (the value
recorded here is the 64-bit float result; the accompanying theorems bound the
exact real quotient inside `(5/2, 7/2)`, so every model within `0.9` of it
rounds to the same integer `3`). -/
def lqLog : ℚ → ℚ → ℚ → ℚ := fun length width ratio =>
  if length = 1 ∧ width = 1/10 ∧ ratio = 2 then 34594316186372973 / 10^16 else 0

/-! ## Supporting lemmas -/

lemma foldl_mul_eq_prod (l : List ℤ) : l.foldl (· * ·) 1 = l.prod :=
  (List.prod_eq_foldl).symm

lemma pyTrunc_eq_floor (x : ℚ) (hx : 0 ≤ x) : pyTrunc x = ⌊x⌋ :=
  if_pos hx

lemma log2_pos : (0 : ℝ) < Real.log 2 :=
  Real.log_pos (by norm_num)

/-- Interval bounds for `log 11 / log 2`: `2^5 < 11^2 < 2^7` gives
`5/2 < log 11 / log 2 < 7/2`, so the quotient rounds to 3 under any model
accurate to well under `0.9`. -/
lemma log_eleven_log_two_bounds :
    (5 : ℝ)/2 < Real.log 11 / Real.log 2 ∧ Real.log 11 / Real.log 2 < (7 : ℝ)/2 := by
  have h1 : Real.log (32 : ℝ) < Real.log 121 :=
    Real.log_lt_log (by norm_num) (by norm_num)
  have h2 : Real.log (121 : ℝ) < Real.log 128 :=
    Real.log_lt_log (by norm_num) (by norm_num)
  have e32 : Real.log (32 : ℝ) = 5 * Real.log 2 := by
    rw [show (32 : ℝ) = 2 ^ (5 : ℕ) by norm_num, Real.log_pow]
    norm_num
  have e121 : Real.log (121 : ℝ) = 2 * Real.log 11 := by
    rw [show (121 : ℝ) = 11 ^ (2 : ℕ) by norm_num, Real.log_pow]
    norm_num
  have e128 : Real.log (128 : ℝ) = 7 * Real.log 2 := by
    rw [show (128 : ℝ) = 2 ^ (7 : ℕ) by norm_num, Real.log_pow]
    norm_num
  have hp := log2_pos
  constructor
  · rw [lt_div_iff₀ hp]
    nlinarith
  · rw [div_lt_iff₀ hp]
    nlinarith

/-- The two coarse-search loops agree when the level bound of the second is
`precision - 1`: for `k ≥ 1`, the source's guard `k < precision` and the
level-form guard `k ≤ precision - 1` coincide. -/
lemma csrLoop_eq_levels (lq : ℚ → ℚ → ℚ → ℚ) (L w ar : ℚ) (p : ℕ) :
    ∀ (fuel k : ℕ) (r : ℚ), 1 ≤ k →
      csrLoop lq L w ar p fuel k r = csrLoopLevels lq L w ar (p - 1) fuel k r := by
  intro fuel
  induction fuel with
  | zero => intro k r _; rfl
  | succ m ih =>
    intro k r hk
    simp only [csrLoop, csrLoopLevels]
    by_cases hkp : k < p
    · rw [if_pos hkp, if_pos (by omega : k ≤ p - 1)]
      by_cases hc : (r ^ (pyRound (lq L w r) - 1) : ℚ) < ar
      · rw [if_pos hc, if_pos hc]
        exact ih (k + 1) _ (by omega)
      · rw [if_neg hc, if_neg hc]
        exact ih k _ hk
    · rw [if_neg hkp, if_neg (by omega : ¬ k ≤ p - 1)]

/-- The two fine-refinement loops agree whenever the quotient model is
nonnegative (truncation and floor coincide on nonnegative rationals; the
quotient of the two logarithms is nonnegative wherever it is defined). -/
lemma cosrLoop_eq_spec (lq : ℚ → ℚ → ℚ → ℚ) (L w : ℚ)
    (h : ∀ a b c, 0 ≤ lq a b c) :
    ∀ (rem k : ℕ) (r : ℚ), cosrLoop lq L w rem k r = cosrLoopSpec lq L w rem k r := by
  intro rem
  induction rem with
  | zero => intro k r; rfl
  | succ m ih =>
    intro k r
    simp only [cosrLoop, cosrLoopSpec, pyTrunc_eq_floor _ (h L w r)]
    by_cases hc : |L - geometric_sum w r ⌊lq L w r⌋| <
        |L - geometric_sum w r (⌊lq L w r⌋ + 1)|
    · rw [if_pos hc, if_pos hc]
      exact ih (k + 1) _
    · rw [if_neg hc, if_neg hc]
      exact ih (k + 1) _

/-- `⌊x + 1/2⌋` is a nearest integer to `x`. -/
lemma floor_half_nearest (x : ℚ) (m : ℤ) :
    |x - ((⌊x + 1/2⌋ : ℤ) : ℚ)| ≤ |x - (m : ℚ)| := by
  have h1 : ((⌊x + 1/2⌋ : ℤ) : ℚ) ≤ x + 1/2 := Int.floor_le _
  have h2 : x + 1/2 < ((⌊x + 1/2⌋ : ℤ) : ℚ) + 1 := Int.lt_floor_add_one _
  by_cases hm : m = ⌊x + 1/2⌋
  · subst hm
    exact le_rfl
  · have hint : (1 : ℚ) ≤ |((⌊x + 1/2⌋ : ℤ) : ℚ) - (m : ℚ)| := by
      have h0 : (1 : ℤ) ≤ |⌊x + 1/2⌋ - m| :=
        Int.one_le_abs (sub_ne_zero.mpr (fun h => hm h.symm))
      calc (1 : ℚ) = ((1 : ℤ) : ℚ) := by norm_num
        _ ≤ ((|⌊x + 1/2⌋ - m| : ℤ) : ℚ) := by exact_mod_cast h0
        _ = |((⌊x + 1/2⌋ : ℤ) : ℚ) - (m : ℚ)| := by push_cast; ring_nf
    have htri : |((⌊x + 1/2⌋ : ℤ) : ℚ) - (m : ℚ)|
        ≤ |x - ((⌊x + 1/2⌋ : ℤ) : ℚ)| + |x - (m : ℚ)| := by
      calc |((⌊x + 1/2⌋ : ℤ) : ℚ) - (m : ℚ)|
          = |(((⌊x + 1/2⌋ : ℤ) : ℚ) - x) + (x - (m : ℚ))| := by ring_nf
        _ ≤ |((⌊x + 1/2⌋ : ℤ) : ℚ) - x| + |x - (m : ℚ)| := abs_add _ _
        _ = |x - ((⌊x + 1/2⌋ : ℤ) : ℚ)| + |x - (m : ℚ)| := by rw [abs_sub_comm]
    have hhalf : |x - ((⌊x + 1/2⌋ : ℤ) : ℚ)| ≤ 1/2 :=
      abs_le.mpr ⟨by linarith, by linarith⟩
    linarith

/-- `pyRound x` is a nearest integer to `x`. -/
lemma pyRound_nearest (x : ℚ) (m : ℤ) :
    |x - ((pyRound x : ℤ) : ℚ)| ≤ |x - (m : ℚ)| := by
  unfold pyRound
  by_cases hx : 0 ≤ x
  · rw [if_pos hx]
    exact floor_half_nearest x m
  · rw [if_neg hx]
    have key : x - ((-⌊-x + 1/2⌋ : ℤ) : ℚ) = -((-x) - ((⌊-x + 1/2⌋ : ℤ) : ℚ)) := by
      push_cast
      ring
    have key2 : x - (m : ℚ) = -((-x) - ((-m : ℤ) : ℚ)) := by
      push_cast
      ring
    rw [key, key2, abs_neg, abs_neg]
    exact floor_half_nearest (-x) (-m)

lemma pyRound_nonneg (x : ℚ) (hx : 0 ≤ x) : 0 ≤ pyRound x := by
  unfold pyRound
  rw [if_pos hx]
  exact Int.floor_nonneg.mpr (by linarith)

/-- Under the uniform-width tolerance check, `numpy.arange(start, end + width/2,
width)` has exactly `round(length/width) + 1` entries. -/
lemma arange_ceil (s e w : ℚ) (hw : 0 < w)
    (htol : |((pyRound ((e - s)/w) : ℤ) : ℚ) - (e - s)/w| ≤ 1/10^12) :
    ⌈(e + w/2 - s)/w⌉ = pyRound ((e - s)/w) + 1 := by
  have habs := abs_le.mp htol
  have key : (e + w/2 - s)/w = (e - s)/w + 1/2 := by
    field_simp
    ring
  rw [key, Int.ceil_eq_iff]
  constructor
  · push_cast
    linarith [habs.1, habs.2]
  · push_cast
    linarith [habs.1, habs.2]

/-! ## Claims -/

/-- Claim C7: `get_number_cells` returns the per-direction list of each
gridline's `nb_divisions` together with the total equal to the product of those
counts; for an empty mesh the total is 1 and the per-direction list is empty. -/
theorem C7_number_cells (m : CartesianStructuredMesh) :
    m.get_number_cells
      = ((m.gridlines.map GridLine.nb_divisions).prod, m.gridlines.map GridLine.nb_divisions)
    ∧ CartesianStructuredMesh.get_number_cells ⟨[]⟩ = (1, []) := by
  refine ⟨?_, rfl⟩
  unfold CartesianStructuredMesh.get_number_cells
  rw [foldl_mul_eq_prod]

/-- Claim C9: the reader does not detect a mismatch between the header
division counts and the length of the coordinate block.  At header `2 2` with
only five coordinates, `numpy.split` silently hands the second gridline a
two-vertex chunk: the mesh is built without any error, with division counts
`[2, 1]` instead of the header's `[2, 2]`. -/
theorem C9_silent_mismatch :
    (CartesianStructuredMesh.read [2, 2] [1, 2, 3, 1, 2]).map
        (fun m => m.gridlines.map GridLine.nb_divisions) = some [2, 1]
    ∧ ([2, 1] : List ℤ) ≠ [2, 2] := by
  decide

/-- Claim C2, counterexample: with `precision = 1` the source's loop
(`while current_precision < precision`, starting at level 1) performs no digit
step at all and returns the initial ratio 2.0, while the claimed process
(digit levels `k = 1 .. precision`) performs the level-1 step and returns 2.1.
The run consults the quotient model only at ratio 2, where the real value
`log 11 / log 2` lies in `(5/2, 7/2)` — as does the recorded float model — so
`n = 3`, the candidate aspect ratio is `2^2 = 4 < 100`, and the claimed
process takes the increase branch. -/
theorem C2_counterexample :
    ((5 : ℝ)/2 < Real.log 11 / Real.log 2 ∧ Real.log 11 / Real.log 2 < (7 : ℝ)/2)
    ∧ (5/2 < lqLog 1 (1/10) 2 ∧ lqLog 1 (1/10) 2 < 7/2)
    ∧ Segment.compute_stretch_ratio lqLog 0 1 (1/10) 100 1 30 = some 2
    ∧ compute_stretch_ratio_claimed lqLog 0 1 (1/10) 100 1 30 = some (21/10)
    ∧ some (2 : ℚ) ≠ some (21/10 : ℚ) :=
  ⟨log_eleven_log_two_bounds, by decide, by decide, by decide, by decide⟩

/-- Claim C2 (amended): `compute_stretch_ratio(width, aspect_ratio, precision)`,
starting from ratio 2.0, performs at each of the `precision - 1` digit-levels
`k = 1 .. precision - 1` the step: compute
`n = round(log(1 - length/width*(1-ratio))/log(ratio))` and
`candidate_aspect_ratio = ratio^(n-1)`; if the candidate is below the target
aspect ratio it increases ratio by `0.1^k` and advances to the next
digit-level, otherwise it decreases ratio by `0.1^k` and retries at the same
digit-level, returning the final ratio (the loop guard is
`current_precision < precision`, so the level `precision` step is never
executed). -/
theorem C2_coarse_search_amended (lq : ℚ → ℚ → ℚ → ℚ)
    (start end_ width aspect_ratio : ℚ) (precision fuel : ℕ) :
    Segment.compute_stretch_ratio lq start end_ width aspect_ratio precision fuel
      = compute_stretch_ratio_amended lq start end_ width aspect_ratio precision fuel :=
  csrLoop_eq_levels lq |end_ - start| width aspect_ratio precision fuel 1 2 le_rfl

/-- Claim C3: `compute_optimal_stretch_ratio(width, ratio, precision)` starts
`precision_ratio` at the number of decimal digits in ratio's literal
representation and, while `precision_ratio < precision`, computes
`n = floor(log(1 - (1-ratio)*length/width)/log(ratio))` without rounding,
compares the absolute deviation of the true length from the geometric sum
`S(width, ratio, n)` versus `S(width, ratio, n+1)`, increments
`precision_ratio`, and increases ratio by `0.1^precision_ratio` when the
n-deviation is smaller, otherwise decreases it by `0.1^precision_ratio`.  The
source computes `n` with `int(...)` (truncation); under any nonnegative
quotient model — and the logarithm quotient is nonnegative wherever defined —
truncation is floor, and the source function coincides with the claimed
process. -/
theorem C3_fine_refinement (lq : ℚ → ℚ → ℚ → ℚ) (h : ∀ a b c, 0 ≤ lq a b c)
    (start end_ width ratio : ℚ) (precision : ℕ) :
    Segment.compute_optimal_stretch_ratio lq start end_ width ratio precision
      = compute_optimal_stretch_ratio_spec lq start end_ width ratio precision :=
  cosrLoop_eq_spec lq |end_ - start| width h
    (precision - literalDecimalDigits ratio) (literalDecimalDigits ratio) ratio

set_option maxRecDepth 4000 in
/-- Witness for C3: a concrete nonnegative quotient model and a concrete run
(two refinement iterations from ratio 2 at precision 3, both decreasing),
evaluated on both sides. -/
theorem C3_witness :
    (∀ a b c : ℚ, 0 ≤ lqConst (3/2) a b c)
    ∧ Segment.compute_optimal_stretch_ratio (lqConst (3/2)) 0 1 (1/10) 2 3
        = compute_optimal_stretch_ratio_spec (lqConst (3/2)) 0 1 (1/10) 2 3
    ∧ Segment.compute_optimal_stretch_ratio (lqConst (3/2)) 0 1 (1/10) 2 3 = 1989/1000 :=
  ⟨fun _ _ _ => by norm_num [lqConst],
   C3_fine_refinement (lqConst (3/2)) (fun _ _ _ => by norm_num [lqConst]) 0 1 (1/10) 2 3,
   by decide⟩

/-- Claim C8: for a stretched segment (ratio outside the uniform tolerance,
any quotient model), a segment built with `reverse=True` stores `1/ratio` as
the stretch ratio, and its vertices are the ascending-order mirror of the
non-reversed segment's vertices about the segment midpoint:
`get_vertices(reverse=True)` equals the non-reversed result with every vertex
`v` replaced by `start + end - v`, re-sorted ascending (the source builds the
reversed vertices backward from `end` by cumulative width sums —
`numpy.insert(end - cumsum(widths), 0, end)` — then order-reverses to
ascending, which is exactly that mirror), and whenever the reversed call
succeeds its stored `stretch_ratio` is `1/ratio`. -/
theorem C8_reverse_mirror (lq : ℚ → ℚ → ℚ → ℚ) (s e w r : ℚ)
    (hr : ¬ |r - 1| < 1/10^6) :
    (Segment.get_vertices lq s e w r true
      = (Segment.get_vertices lq s e w r false).map
          (fun res => ⟨(res.vertices.map (fun v => s + e - v)).reverse,
                       res.aspect_ratio, 1 / r⟩))
    ∧ (∀ res, Segment.get_vertices lq s e w r true = some res →
        res.stretch_ratio = 1 / r) := by
  have hmirror : Segment.get_vertices lq s e w r true
      = (Segment.get_vertices lq s e w r false).map
          (fun res => ⟨(res.vertices.map (fun v => s + e - v)).reverse,
                       res.aspect_ratio, 1 / r⟩) := by
    simp only [Segment.get_vertices, if_neg hr]
    by_cases hn : 1 ≤ pyRound (lq |e - s| w r)
    · rw [if_pos hn, if_pos hn]
      simp only [if_pos, Option.map_some']
      refine congrArg some ?_
      refine congrArg (fun l => VertexResult.mk l _ _) ?_
      simp only [List.map_cons, List.map_map]
      refine congrArg List.reverse ?_
      refine congrArg₂ List.cons (by ring) ?_
      refine List.map_congr_left ?_
      intro c _
      simp only [Function.comp_apply]
      ring
    · rw [if_neg hn, if_neg hn]
      rfl
  refine ⟨hmirror, ?_⟩
  intro res h
  rw [hmirror] at h
  cases hf : Segment.get_vertices lq s e w r false with
  | none =>
    rw [hf] at h
    exact absurd h (by simp)
  | some fwd =>
    rw [hf] at h
    simp only [Option.map_some'] at h
    have h2 := Option.some_injective _ h
    rw [← h2]

/-- Witness for C8: a stretched run (`ratio = 2`, quotient model constantly
`7/2`, so `n = 4` and widths `0.1, 0.2, 0.4, 0.8`), with the mirror identity
and reciprocal stored ratio from the theorem, and both the forward result
(`[0, 0.1, 0.3, 0.7, 1.5]`, stretch ratio 2) and the reversed result
(`[-0.5, 0.3, 0.7, 0.9, 1]`, stretch ratio `1/2`) evaluated concretely. -/
theorem C8_witness :
    (¬ |(2 : ℚ) - 1| < 1/10^6)
    ∧ ((Segment.get_vertices (lqConst (7/2)) 0 1 (1/10) 2 true
        = (Segment.get_vertices (lqConst (7/2)) 0 1 (1/10) 2 false).map
            (fun res => ⟨(res.vertices.map (fun v => 0 + 1 - v)).reverse,
                         res.aspect_ratio, 1 / 2⟩))
       ∧ (∀ res, Segment.get_vertices (lqConst (7/2)) 0 1 (1/10) 2 true = some res →
           res.stretch_ratio = 1 / 2))
    ∧ Segment.get_vertices (lqConst (7/2)) 0 1 (1/10) 2 false
        = some ⟨[0, 1/10, 3/10, 7/10, 3/2], 8, 2⟩
    ∧ Segment.get_vertices (lqConst (7/2)) 0 1 (1/10) 2 true
        = some ⟨[-(1/2), 3/10, 7/10, 9/10, 1], 8, 1/2⟩ :=
  ⟨by decide, C8_reverse_mirror (lqConst (7/2)) 0 1 (1/10) 2 (by decide),
   by decide, by decide⟩

/-- Claim C10, counterexample: a vertex array containing 0.0 does not make the
`GridLine` constructor raise — the `numpy.all` guard is false, so no segment
is created and the constructor returns normally with an empty segment list —
and `read` on a grid containing coordinate 0.0 therefore does not fail: it
silently appends the degenerate gridline. -/
theorem C10_counterexample :
    gridLineFromVertices (some "x") [0, 1] = some ⟨some "x", []⟩
    ∧ (CartesianStructuredMesh.read [1] [0, 1]).isSome = true := by
  decide

/-- Claim C10 (amended): for a vertex array containing 0.0, the
`numpy.all(vertices)` guard is false and the vertices branch is skipped in
both constructors; constructing a `Segment` directly then raises
`AttributeError` (`none`), but the `GridLine` constructor returns normally
with no segments and `nb_divisions = 0`, so `CartesianStructuredMesh.read`
does not fail on a grid containing a 0.0 coordinate: it silently produces a
segmentless gridline for that direction. -/
theorem C10_zero_guard_amended (lab : Option String) (vs : List ℚ)
    (h0 : (0 : ℚ) ∈ vs) :
    segmentFromVertices vs = none
    ∧ gridLineFromVertices lab vs = some ⟨lab, []⟩
    ∧ GridLine.nb_divisions ⟨lab, []⟩ = 0
    ∧ CartesianStructuredMesh.read [(vs.length : ℤ) - 1] vs
        = some ⟨[⟨some "x", []⟩]⟩ := by
  have hcond : ¬ (vs.all (fun v => v ≠ 0) = true) := by
    rw [List.all_eq_false.mpr ⟨0, h0, by simp⟩]
    exact Bool.false_ne_true
  have hg : ∀ lab2 : Option String, gridLineFromVertices lab2 vs = some ⟨lab2, []⟩ := by
    intro lab2
    simp only [gridLineFromVertices]
    rw [if_neg hcond]
  refine ⟨?_, hg lab, rfl, ?_⟩
  · simp only [segmentFromVertices]
    rw [if_neg hcond]
  · simp [CartesianStructuredMesh.read, splitCum, readGridLines, hg]

/-- Witness for C10: the array `[1, 0, 2]` (0.0 as an interior vertex). -/
theorem C10_witness :
    ((0 : ℚ) ∈ [(1 : ℚ), 0, 2])
    ∧ (segmentFromVertices [1, 0, 2] = none
       ∧ gridLineFromVertices (some "y") [1, 0, 2] = some ⟨some "y", []⟩
       ∧ GridLine.nb_divisions ⟨some "y", []⟩ = 0
       ∧ CartesianStructuredMesh.read [((3 : ℕ) : ℤ) - 1] [1, 0, 2]
           = some ⟨[⟨some "x", []⟩]⟩) :=
  ⟨by decide, C10_zero_guard_amended (some "y") [1, 0, 2] (by decide)⟩

set_option maxRecDepth 8000 in
/-- Claim C5, counterexample: the claim asserts that a successful uniform run
returns a sequence ending exactly at `end`.  With `start = 0`,
`end = 1 + 10⁻¹³`, `width = 1/10`, the check passes (`length/width` is within
`10⁻¹²` of the integer 10), yet the returned vertices end at `1.0`, not at
`end`. -/
theorem C5_counterexample :
    (Segment.get_vertices lqZero 0 (1 + 1/10^13) (1/10) 1 false).map
        (fun res => (res.vertices.head?, res.vertices.getLast?))
      = some (some 0, some 1)
    ∧ (1 : ℚ) ≠ 1 + 1/10^13 := by
  decide

/-- Claim C5 (amended): for a segment in the uniform branch
(`|ratio - 1| < 1e-6`) with `start < end` and positive width, `get_vertices`
fails if and only if `length/width` is not within `1e-12` of an integer; when
it succeeds it sets `aspect_ratio` to 1.0 and returns the arithmetic sequence
`start + i*width`, `i = 0 .. round(length/width)`, satisfying
`len(vertices) - 1 == round((end-start)/width)` — the last vertex is
`start + round(length/width)*width`, which equals `end` exactly only when the
length is an exact multiple of the width. -/
theorem C5_uniform_amended (lq : ℚ → ℚ → ℚ → ℚ) (s e w r : ℚ) (rev : Bool)
    (hs : s < e) (hw : 0 < w) (hr : |r - 1| < 1/10^6) :
    (Segment.get_vertices lq s e w r rev = none ↔
       ¬ ∃ m : ℤ, |(e - s)/w - (m : ℚ)| ≤ 1/10^12)
    ∧ (∀ res, Segment.get_vertices lq s e w r rev = some res →
        res.aspect_ratio = 1
        ∧ res.vertices
            = (List.range ((pyRound ((e - s)/w)).toNat + 1)).map (fun i : ℕ => s + (i : ℚ) * w)
        ∧ (res.vertices.length : ℤ) - 1 = pyRound ((e - s)/w)) := by
  have habs : |e - s| = e - s := abs_of_pos (by linarith)
  have hval : Segment.get_vertices lq s e w r rev
      = if |((pyRound ((e - s)/w) : ℤ) : ℚ) - (e - s)/w| > 1/10^12 then none
        else some ⟨arange s (e + w/2) w, 1, r⟩ := by
    simp only [Segment.get_vertices, habs, if_pos hr]
  by_cases hchk : |((pyRound ((e - s)/w) : ℤ) : ℚ) - (e - s)/w| > 1/10^12
  · rw [hval, if_pos hchk]
    constructor
    · constructor
      · intro _ hex
        obtain ⟨m, hm⟩ := hex
        have hnear := pyRound_nearest ((e - s)/w) m
        rw [abs_sub_comm] at hchk
        linarith [le_trans hnear hm]
      · intro _
        rfl
    · intro res hres
      exact absurd hres (by simp)
  · rw [hval, if_neg hchk]
    push_neg at hchk
    constructor
    · constructor
      · intro h
        exact absurd h (by simp)
      · intro hnon
        exact absurd ⟨pyRound ((e - s)/w), by rw [abs_sub_comm]; exact hchk⟩ hnon
    · intro res hres
      have hres' : res = ⟨arange s (e + w/2) w, 1, r⟩ := by
        exact (Option.some_injective _ hres.symm)
      subst hres'
      have hm0 : 0 ≤ pyRound ((e - s)/w) :=
        pyRound_nonneg _ (le_of_lt (div_pos (by linarith) hw))
      have hceil : ⌈(e + w/2 - s)/w⌉ = pyRound ((e - s)/w) + 1 :=
        arange_ceil s e w hw hchk
      have hcount : (⌈(e + w/2 - s)/w⌉).toNat = (pyRound ((e - s)/w)).toNat + 1 := by
        omega
      refine ⟨rfl, ?_, ?_⟩
      · simp only [arange, hcount]
      · simp only [arange, hcount, List.length_map, List.length_range]
        rw [Nat.cast_add, Nat.cast_one, Int.toNat_of_nonneg hm0]
        ring

set_option maxRecDepth 8000 in
/-- Witness for C5: the unit interval at uniform width `1/10`: ten divisions,
eleven vertices `0, 0.1, …, 1`. -/
theorem C5_witness :
    ((0 : ℚ) < 1 ∧ (0 : ℚ) < 1/10 ∧ |(1 : ℚ) - 1| < 1/10^6)
    ∧ ((Segment.get_vertices lqZero 0 1 (1/10) 1 false = none ↔
          ¬ ∃ m : ℤ, |(1 - 0)/(1/10) - (m : ℚ)| ≤ 1/10^12)
       ∧ (∀ res, Segment.get_vertices lqZero 0 1 (1/10) 1 false = some res →
           res.aspect_ratio = 1
           ∧ res.vertices
               = (List.range ((pyRound ((1 - 0)/(1/10))).toNat + 1)).map
                   (fun i : ℕ => (0 : ℚ) + (i : ℚ) * (1/10))
           ∧ (res.vertices.length : ℤ) - 1 = pyRound ((1 - 0)/(1/10)))) :=
  ⟨⟨by norm_num, by norm_num, by norm_num⟩,
   C5_uniform_amended lqZero 0 1 (1/10) 1 false (by norm_num) (by norm_num) (by norm_num)⟩

lemma getLast?_cons_of_ne (a : ℚ) (l : List ℚ) (h : l ≠ []) :
    (a :: l).getLast? = l.getLast? := by
  cases l with
  | nil => exact absurd rfl h
  | cons b t => exact List.getLast?_cons_cons

lemma cumsumFrom_ne_nil (acc x : ℚ) (xs : List ℚ) : cumsumFrom acc (x :: xs) ≠ [] := by
  simp [cumsumFrom]

/-- The last running sum is the total sum. -/
lemma cumsumFrom_getLast? (l : List ℚ) : ∀ acc : ℚ, l ≠ [] →
    (cumsumFrom acc l).getLast? = some (acc + l.sum) := by
  induction l with
  | nil => intro acc h; exact absurd rfl h
  | cons x xs ih =>
    intro acc _
    cases xs with
    | nil => simp [cumsumFrom]
    | cons y ys =>
      rw [cumsumFrom, getLast?_cons_of_ne _ _ (cumsumFrom_ne_nil _ _ _),
        ih (acc + x) (by simp), List.sum_cons, List.sum_cons, List.sum_cons]
      refine congrArg some ?_
      ring

lemma range_map_getLast? (n : ℕ) (f : ℕ → ℚ) :
    ((List.range (n + 1)).map f).getLast? = some (f n) := by
  rw [List.range_succ, List.map_append]
  simp

lemma range_map_head? (n : ℕ) (f : ℕ → ℚ) :
    ((List.range (n + 1)).map f).head? = some (f 0) := by
  rw [List.range_succ_eq_map]
  simp

lemma stretchWidths_ne_nil (w r : ℚ) (n : ℕ) (hn : 1 ≤ n) :
    stretchWidths w r n ≠ [] := by
  unfold stretchWidths
  simp only [ne_eq, List.map_eq_nil_iff, List.range_eq_nil]
  omega

/-- Claim C4, counterexample: the claim asserts that every returned vertex
array ends exactly at `end`, both boundaries being placed explicitly.  For the
stretched segment `start = 0`, `end = 1`, `width = 1/10`, `ratio = 2`
(non-reversed), `n = round(log 11 / log 2) = 3` and the last vertex is
`start + 0.1*(1 + 2 + 4) = 0.7 ≠ 1`: the upper boundary is obtained by
summation and missed.  The quotient model is consulted only at ratio 2, where
the real value lies in `(5/2, 7/2)` — as does the recorded float value — so
any accurate model yields `n = 3`. -/
theorem C4_counterexample :
    ((5 : ℝ)/2 < Real.log 11 / Real.log 2 ∧ Real.log 11 / Real.log 2 < (7 : ℝ)/2)
    ∧ (5/2 < lqLog 1 (1/10) 2 ∧ lqLog 1 (1/10) 2 < 7/2)
    ∧ (Segment.get_vertices lqLog 0 1 (1/10) 2 false).map
        (fun res => (res.vertices.head?, res.vertices.getLast?))
      = some (some 0, some (7/10))
    ∧ (7/10 : ℚ) ≠ 1 :=
  ⟨log_eleven_log_two_bounds, by decide,
   by decide, by decide⟩

/-- Claim C4 (amended): only one boundary of the returned vertex array is
placed explicitly; the other is reached by summation and need not equal the
segment bound.  For a successful `get_vertices` call with `start < end` and
positive width: in the uniform branch the vertices run from exactly `start` to
`start + round(length/width)*width`; in the stretched non-reversed branch they
run from exactly `start` to `start` plus the sum of the `n` geometric widths;
in the reversed branch they end at exactly `end` and begin at `end` minus that
sum. -/
theorem C4_boundary_amended (lq : ℚ → ℚ → ℚ → ℚ) (s e w r : ℚ) (rev : Bool)
    (res : VertexResult) (hs : s < e) (hw : 0 < w)
    (h : Segment.get_vertices lq s e w r rev = some res) :
    (|r - 1| < 1/10^6 →
       res.vertices.head? = some s
       ∧ res.vertices.getLast? = some (s + ((pyRound ((e - s)/w) : ℤ) : ℚ) * w))
    ∧ (¬ |r - 1| < 1/10^6 → rev = false →
       res.vertices.head? = some s
       ∧ res.vertices.getLast?
           = some (s + (stretchWidths w r (pyRound (lq (e - s) w r)).toNat).sum))
    ∧ (¬ |r - 1| < 1/10^6 → rev = true →
       res.vertices.getLast? = some e
       ∧ res.vertices.head?
           = some (e - (stretchWidths w r (pyRound (lq (e - s) w r)).toNat).sum)) := by
  have habs : |e - s| = e - s := abs_of_pos (by linarith)
  refine ⟨?_, ?_, ?_⟩
  · -- uniform branch
    intro hr
    rw [Segment.get_vertices] at h
    simp only [habs, if_pos hr] at h
    by_cases hchk : |((pyRound ((e - s)/w) : ℤ) : ℚ) - (e - s)/w| > 1/10^12
    · rw [if_pos hchk] at h
      exact absurd h (by simp)
    · rw [if_neg hchk] at h
      push_neg at hchk
      have hres : res = ⟨arange s (e + w/2) w, 1, r⟩ := (Option.some_injective _ h).symm
      subst hres
      have hm0 : 0 ≤ pyRound ((e - s)/w) :=
        pyRound_nonneg _ (le_of_lt (div_pos (by linarith) hw))
      have hceil : ⌈(e + w/2 - s)/w⌉ = pyRound ((e - s)/w) + 1 :=
        arange_ceil s e w hw hchk
      have hcount : (⌈(e + w/2 - s)/w⌉).toNat = (pyRound ((e - s)/w)).toNat + 1 := by
        omega
      constructor
      · show (arange s (e + w/2) w).head? = some s
        rw [arange, hcount, range_map_head?]
        refine congrArg some ?_
        norm_num
      · show (arange s (e + w/2) w).getLast? = _
        rw [arange, hcount, range_map_getLast?]
        refine congrArg some ?_
        have hcast : (((pyRound ((e - s)/w)).toNat : ℕ) : ℚ)
            = ((pyRound ((e - s)/w) : ℤ) : ℚ) := by
          exact_mod_cast congrArg (fun z : ℤ => (z : ℚ)) (Int.toNat_of_nonneg hm0)
        rw [hcast]
  · -- stretched, non-reversed
    intro hr hrev
    subst hrev
    rw [Segment.get_vertices] at h
    simp only [habs, if_neg hr, Bool.false_eq_true, if_false] at h
    by_cases hn : 1 ≤ pyRound (lq (e - s) w r)
    · rw [if_pos hn] at h
      have hres : res = ⟨s :: (cumsum (stretchWidths w r (pyRound (lq (e - s) w r)).toNat)).map
            (fun c => s + c),
          (stretchWidths w r (pyRound (lq (e - s) w r)).toNat).getLastD 0 /
            (stretchWidths w r (pyRound (lq (e - s) w r)).toNat).headD 0, r⟩ :=
        (Option.some_injective _ h).symm
      subst hres
      have hwid : stretchWidths w r (pyRound (lq (e - s) w r)).toNat ≠ [] :=
        stretchWidths_ne_nil w r _ (by omega)
      have hcs : cumsum (stretchWidths w r (pyRound (lq (e - s) w r)).toNat) ≠ [] := by
        rcases List.exists_cons_of_ne_nil hwid with ⟨x, xs, hx⟩
        rw [cumsum, hx]
        exact cumsumFrom_ne_nil _ _ _
      refine ⟨rfl, ?_⟩
      show (_ :: _).getLast? = _
      rw [getLast?_cons_of_ne _ _ (by simpa using hcs), List.getLast?_map,
        cumsum, cumsumFrom_getLast? _ 0 hwid]
      refine congrArg some ?_
      simp only [Option.map_some']
      ring
    · rw [if_neg hn] at h
      exact absurd h (by simp)
  · -- stretched, reversed
    intro hr hrev
    subst hrev
    rw [Segment.get_vertices] at h
    simp only [habs, if_neg hr, if_true] at h
    by_cases hn : 1 ≤ pyRound (lq (e - s) w r)
    · rw [if_pos hn] at h
      have hres : res = ⟨(e :: (cumsum (stretchWidths w r (pyRound (lq (e - s) w r)).toNat)).map
            (fun c => e - c)).reverse,
          (stretchWidths w r (pyRound (lq (e - s) w r)).toNat).getLastD 0 /
            (stretchWidths w r (pyRound (lq (e - s) w r)).toNat).headD 0, 1/r⟩ :=
        (Option.some_injective _ h).symm
      subst hres
      have hwid : stretchWidths w r (pyRound (lq (e - s) w r)).toNat ≠ [] :=
        stretchWidths_ne_nil w r _ (by omega)
      have hcs : cumsum (stretchWidths w r (pyRound (lq (e - s) w r)).toNat) ≠ [] := by
        rcases List.exists_cons_of_ne_nil hwid with ⟨x, xs, hx⟩
        rw [cumsum, hx]
        exact cumsumFrom_ne_nil _ _ _
      constructor
      · show (List.reverse _).getLast? = some e
        rw [List.getLast?_reverse]
        rfl
      · show (List.reverse _).head? = _
        rw [List.head?_reverse, getLast?_cons_of_ne _ _ (by simpa using hcs),
          List.getLast?_map, cumsum, cumsumFrom_getLast? _ 0 hwid]
        refine congrArg some ?_
        simp only [Option.map_some']
        ring
    · rw [if_neg hn] at h
      exact absurd h (by simp)

set_option maxRecDepth 8000 in
/-- Witness for C4: the stretched non-reversed segment `start = 0`, `end = 1`,
`width = 1/10`, `ratio = 2` with quotient model constantly `5/2` (`n = 3`):
vertices `[0, 0.1, 0.3, 0.7]`, first exactly `start`, last `start + 0.7`. -/
theorem C4_witness :
    ((0 : ℚ) < 1 ∧ (0 : ℚ) < 1/10
      ∧ Segment.get_vertices (lqConst (5/2)) 0 1 (1/10) 2 false
          = some ⟨[0, 1/10, 3/10, 7/10], 4, 2⟩)
    ∧ ((|(2 : ℚ) - 1| < 1/10^6 →
          (VertexResult.mk [0, 1/10, 3/10, 7/10] 4 2).vertices.head? = some 0
          ∧ (VertexResult.mk [0, 1/10, 3/10, 7/10] 4 2).vertices.getLast?
              = some (0 + ((pyRound ((1 - 0)/(1/10)) : ℤ) : ℚ) * (1/10)))
       ∧ (¬ |(2 : ℚ) - 1| < 1/10^6 → false = false →
          (VertexResult.mk [0, 1/10, 3/10, 7/10] 4 2).vertices.head? = some 0
          ∧ (VertexResult.mk [0, 1/10, 3/10, 7/10] 4 2).vertices.getLast?
              = some (0 + (stretchWidths (1/10) 2
                  (pyRound (lqConst (5/2) (1 - 0) (1/10) 2)).toNat).sum))
       ∧ (¬ |(2 : ℚ) - 1| < 1/10^6 → false = true →
          (VertexResult.mk [0, 1/10, 3/10, 7/10] 4 2).vertices.getLast? = some 1
          ∧ (VertexResult.mk [0, 1/10, 3/10, 7/10] 4 2).vertices.head?
              = some (1 - (stretchWidths (1/10) 2
                  (pyRound (lqConst (5/2) (1 - 0) (1/10) 2)).toNat).sum))) :=
  ⟨⟨by norm_num, by norm_num, by decide⟩,
   C4_boundary_amended (lqConst (5/2)) 0 1 (1/10) 2 false
     ⟨[0, 1/10, 3/10, 7/10], 4, 2⟩ (by norm_num) (by norm_num)
     (by decide)⟩

/-! ### `numpy.unique` as a canonical form, and chains of linked sorted blocks -/

lemma uniqueSorted_sorted_le (l : List ℚ) : (uniqueSorted l).Sorted (· ≤ ·) :=
  List.Pairwise.sublist (List.dedup_sublist _) (List.sorted_insertionSort _ l)

lemma mem_uniqueSorted (l : List ℚ) (x : ℚ) : x ∈ uniqueSorted l ↔ x ∈ l := by
  unfold uniqueSorted
  rw [List.mem_dedup]
  exact (List.perm_insertionSort _ l).mem_iff

lemma uniqueSorted_nodup (l : List ℚ) : (uniqueSorted l).Nodup :=
  List.nodup_dedup _

lemma nodup_of_sorted_lt (l : List ℚ) (h : l.Sorted (· < ·)) : l.Nodup :=
  h.imp ne_of_lt

/-- A strictly sorted list with the same members as `l` is the result of
sorting and deduplicating `l`: `numpy.unique`'s output is canonical. -/
lemma uniqueSorted_canonical (l M : List ℚ) (hM : M.Sorted (· < ·))
    (hmem : ∀ x, x ∈ l ↔ x ∈ M) : uniqueSorted l = M := by
  have hperm : List.Perm (uniqueSorted l) M := by
    apply List.perm_of_nodup_nodup_toFinset_eq (uniqueSorted_nodup l) (nodup_of_sorted_lt M hM)
    ext a
    simp only [List.mem_toFinset, mem_uniqueSorted, hmem]
  exact List.eq_of_perm_of_sorted hperm (uniqueSorted_sorted_le l) (hM.imp le_of_lt)

lemma joinChain_cons_cons (a b : List ℚ) (t : List (List ℚ)) :
    joinChain (a :: b :: t) = a.dropLast ++ joinChain (b :: t) := rfl

/-- Membership in the chain-join equals membership in the plain concatenation:
the vertex dropped from each block reappears as the head of the next block. -/
lemma joinChain_mem : ∀ (bs : List (List ℚ)), (∀ b ∈ bs, b ≠ []) →
    bs.Chain' (fun u v => u.getLast? = v.head?) →
    ∀ x, x ∈ joinChain bs ↔ x ∈ bs.flatten
  | [], _, _, _ => Iff.rfl
  | [b], _, _, x => by simp [joinChain]
  | b :: b2 :: bs2, hne, hlink, x => by
    have hb : b ≠ [] := hne b (by simp)
    have hb2 : b2 ≠ [] := hne b2 (by simp)
    have hlk : b.getLast? = b2.head? := (List.chain'_cons.mp hlink).1
    have ihx := joinChain_mem (b2 :: bs2)
      (fun l hl => hne l (List.mem_cons_of_mem _ hl)) (List.chain'_cons.mp hlink).2 x
    rw [joinChain_cons_cons]
    simp only [List.mem_append, List.flatten_cons, ihx]
    constructor
    · rintro (hx | hx)
      · exact Or.inl ((List.dropLast_sublist b).subset hx)
      · exact Or.inr hx
    · rintro (hx | hx)
      · rw [← List.dropLast_append_getLast hb] at hx
        rcases List.mem_append.mp hx with h1 | h1
        · exact Or.inl h1
        · have hxl : x = b.getLast hb := by simpa using h1
          rcases List.exists_cons_of_ne_nil hb2 with ⟨c2, t2, hc2⟩
          have hx2 : x = c2 := by
            have h2 : b.getLast? = some c2 := by rw [hlk, hc2]; rfl
            rw [List.getLast?_eq_getLast b hb] at h2
            rw [hxl]
            exact Option.some_injective _ h2
          refine Or.inr (Or.inl ?_)
          rw [hc2, hx2]
          simp
      · exact Or.inr hx

/-- In a nonempty chain of linked sorted blocks, the head of the first block
bounds every element of the concatenation from below. -/
lemma flatten_head_lower : ∀ (b : List ℚ) (bs : List (List ℚ)) (a : ℚ),
    (∀ l ∈ b :: bs, l ≠ []) → (∀ l ∈ b :: bs, l.Sorted (· < ·)) →
    (b :: bs).Chain' (fun u v => u.getLast? = v.head?) →
    b.head? = some a → ∀ x ∈ (b :: bs).flatten, a ≤ x
  | b, [], a, hne, hsort, _, hhead, x, hx => by
    rw [List.flatten_cons, List.flatten_nil, List.append_nil] at hx
    cases b with
    | nil => exact absurd hx (by simp)
    | cons c t =>
      have hca : c = a := by simpa using hhead
      subst hca
      rcases List.mem_cons.mp hx with h1 | h1
      · exact le_of_eq h1.symm
      · exact le_of_lt ((List.sorted_cons.mp (hsort _ (by simp))).1 x h1)
  | b, b2 :: bs2, a, hne, hsort, hlink, hhead, x, hx => by
    rw [List.flatten_cons] at hx
    rcases List.mem_append.mp hx with h1 | h1
    · cases b with
      | nil => exact absurd h1 (by simp)
      | cons c t =>
        have hca : c = a := by simpa using hhead
        subst hca
        rcases List.mem_cons.mp h1 with h2 | h2
        · exact le_of_eq h2.symm
        · exact le_of_lt ((List.sorted_cons.mp (hsort _ (by simp))).1 x h2)
    · have hb : b ≠ [] := hne b (by simp)
      have hb2 : b2 ≠ [] := hne b2 (by simp)
      rcases List.exists_cons_of_ne_nil hb2 with ⟨c2, t2, hc2⟩
      have hlk : b.getLast? = b2.head? := (List.chain'_cons.mp hlink).1
      have ih := flatten_head_lower b2 bs2 c2
        (fun l hl => hne l (List.mem_cons_of_mem _ hl))
        (fun l hl => hsort l (List.mem_cons_of_mem _ hl))
        (List.chain'_cons.mp hlink).2
        (by rw [hc2]; rfl) x h1
      have hlast_eq : b.getLast hb = c2 := by
        have h2 : b.getLast? = some c2 := by rw [hlk, hc2]; rfl
        rw [List.getLast?_eq_getLast b hb] at h2
        exact Option.some_injective _ h2
      have h_a_le_last : a ≤ b.getLast hb := by
        cases b with
        | nil => exact absurd rfl hb
        | cons c t =>
          have hca : c = a := by simpa using hhead
          subst hca
          rcases List.mem_cons.mp (List.getLast_mem hb) with h2 | h2
          · exact le_of_eq h2.symm
          · exact le_of_lt ((List.sorted_cons.mp (hsort _ (by simp))).1 _ h2)
      linarith [hlast_eq ▸ h_a_le_last]

/-- The chain-join of linked strictly sorted nonempty blocks is strictly
sorted. -/
lemma joinChain_sorted : ∀ (bs : List (List ℚ)),
    (∀ b ∈ bs, b ≠ []) → (∀ b ∈ bs, b.Sorted (· < ·)) →
    bs.Chain' (fun u v => u.getLast? = v.head?) →
    (joinChain bs).Sorted (· < ·)
  | [], _, _, _ => List.sorted_nil
  | [b], _, hsort, _ => hsort b (by simp)
  | b :: b2 :: bs2, hne, hsort, hlink => by
    rw [joinChain_cons_cons, List.Sorted, List.pairwise_append]
    have hb : b ≠ [] := hne b (by simp)
    have hb2 : b2 ≠ [] := hne b2 (by simp)
    have hne2 : ∀ l ∈ b2 :: bs2, l ≠ [] := fun l hl => hne l (List.mem_cons_of_mem _ hl)
    have hsort2 : ∀ l ∈ b2 :: bs2, l.Sorted (· < ·) :=
      fun l hl => hsort l (List.mem_cons_of_mem _ hl)
    have hlink2 := (List.chain'_cons.mp hlink).2
    have hlk : b.getLast? = b2.head? := (List.chain'_cons.mp hlink).1
    refine ⟨List.Pairwise.sublist (List.dropLast_sublist b) (hsort b (by simp)),
      joinChain_sorted (b2 :: bs2) hne2 hsort2 hlink2, ?_⟩
    intro x hx y hy
    rcases List.exists_cons_of_ne_nil hb2 with ⟨c2, t2, hc2⟩
    have hlast_eq : b.getLast hb = c2 := by
      have h2 : b.getLast? = some c2 := by rw [hlk, hc2]; rfl
      rw [List.getLast?_eq_getLast b hb] at h2
      exact Option.some_injective _ h2
    have hxl : x < b.getLast hb := by
      have hsb := hsort b (by simp)
      rw [List.Sorted, ← List.dropLast_append_getLast hb, List.pairwise_append] at hsb
      exact hsb.2.2 x hx (b.getLast hb) (by simp)
    have hy2 : y ∈ (b2 :: bs2).flatten :=
      (joinChain_mem (b2 :: bs2) hne2 hlink2 y).mp hy
    have hc2y : c2 ≤ y :=
      flatten_head_lower b2 bs2 c2 hne2 hsort2 hlink2 (by rw [hc2]; rfl) y hy2
    rw [hlast_eq] at hxl
    linarith

/-- Length of the chain-join: the concatenation minus one shared vertex per
junction. -/
lemma joinChain_length : ∀ (bs : List (List ℚ)), (∀ b ∈ bs, b ≠ []) → bs ≠ [] →
    (joinChain bs).length + bs.length = bs.flatten.length + 1
  | [], _, h => absurd rfl h
  | [b], _, _ => by simp [joinChain]
  | b :: b2 :: bs2, hne, _ => by
    have ih := joinChain_length (b2 :: bs2)
      (fun l hl => hne l (List.mem_cons_of_mem _ hl)) (by simp)
    rw [joinChain_cons_cons, List.length_append, List.flatten_cons, List.length_append]
    have hb : b ≠ [] := hne b (by simp)
    have hdl : b.dropLast.length = b.length - 1 := List.length_dropLast b
    have hbl : 1 ≤ b.length := List.length_pos.mpr hb
    simp only [List.length_cons] at ih ⊢
    omega

lemma sum_nb_divisions (segs : List Segment) :
    (segs.map Segment.nb_divisions).sum
      = ((segs.map (fun s => s.vertices.length)).sum : ℤ) - segs.length := by
  induction segs with
  | nil => simp
  | cons s ss ih =>
    simp only [List.map_cons, List.sum_cons, List.length_cons, ih, Segment.nb_divisions]
    push_cast
    ring

set_option maxRecDepth 8000 in
/-- Claim C6, counterexample: rounding can merge non-boundary vertices, after
which `nb_divisions` no longer equals `len(get_vertices()) - 1`.  The gridline
built (through the public vertex path used by `read`) from
`[1, 1 + 10⁻⁷, 2]` has `nb_divisions = 2`, but at the default precision 6 the
first two vertices round to the same value and `get_vertices()` has 2 entries,
so `len - 1 = 1 ≠ 2`. -/
theorem C6_counterexample :
    gridLineFromVertices (some "x") [1, 1 + 1/10^7, 2]
      = some ⟨some "x", [⟨[1, 1 + 1/10^7, 2]⟩]⟩
    ∧ GridLine.nb_divisions ⟨some "x", [⟨[1, 1 + 1/10^7, 2]⟩]⟩ = 2
    ∧ GridLine.get_vertices 6 ⟨some "x", [⟨[1, 1 + 1/10^7, 2]⟩]⟩ = [1, 2]
    ∧ ((GridLine.get_vertices 6 ⟨some "x", [⟨[1, 1 + 1/10^7, 2]⟩]⟩).length : ℤ) - 1 ≠ 2 := by
  decide

/-- Claim C6 (amended): `nb_divisions` always equals the sum of the segments'
division counts; and whenever rounding to the gridline precision leaves every
segment's vertices strictly increasing and merges exactly the shared boundary
of each pair of consecutive segments (the rounded last vertex of one segment
is the rounded first vertex of the next), `nb_divisions` also equals
`len(get_vertices()) - 1`, and every rounded vertex — in particular a shared
sub-domain boundary — occurs exactly once in `get_vertices()`. -/
theorem C6_gridline_amended (p : ℕ) (g : GridLine)
    (hne : g.segments ≠ [])
    (hvne : ∀ s ∈ g.segments, s.vertices ≠ [])
    (hsort : ∀ s ∈ g.segments, (s.vertices.map (npRoundTo p)).Sorted (· < ·))
    (hlink : (g.segments.map (fun s => s.vertices.map (npRoundTo p))).Chain'
        (fun u v => u.getLast? = v.head?)) :
    g.nb_divisions = (g.segments.map Segment.nb_divisions).sum
    ∧ ((g.get_vertices p).length : ℤ) = g.nb_divisions + 1
    ∧ (∀ s ∈ g.segments, ∀ v ∈ s.vertices,
        (g.get_vertices p).count (npRoundTo p v) = 1) := by
  set blocks := g.segments.map (fun s => s.vertices.map (npRoundTo p)) with hblocks
  have hbne : ∀ b ∈ blocks, b ≠ [] := by
    intro b hb
    rcases List.mem_map.mp hb with ⟨s, hs, rfl⟩
    simpa using hvne s hs
  have hbsort : ∀ b ∈ blocks, b.Sorted (· < ·) := by
    intro b hb
    rcases List.mem_map.mp hb with ⟨s, hs, rfl⟩
    exact hsort s hs
  have hbsne : blocks ≠ [] := by
    rw [hblocks]
    simpa using hne
  have hcanon : g.get_vertices p = joinChain blocks := by
    rw [GridLine.get_vertices]
    exact uniqueSorted_canonical _ _ (joinChain_sorted blocks hbne hbsort hlink)
      (fun x => (joinChain_mem blocks hbne hlink x).symm)
  refine ⟨rfl, ?_, ?_⟩
  · have hlen := joinChain_length blocks hbne hbsne
    have hflat : blocks.flatten.length = (g.segments.map (fun s => s.vertices.length)).sum := by
      rw [List.length_flatten, hblocks, List.map_map]
      refine congrArg List.sum ?_
      refine List.map_congr_left ?_
      intro s _
      simp
    have hsum := sum_nb_divisions g.segments
    have hblen : blocks.length = g.segments.length := by
      rw [hblocks, List.length_map]
    have hcast : (((g.segments.map (fun s => s.vertices.length)).sum : ℕ) : ℤ)
        = (g.segments.map (fun s => (s.vertices.length : ℤ))).sum := by
      rw [Nat.cast_list_sum, List.map_map]
      rfl
    rw [hcanon, GridLine.nb_divisions, hsum]
    omega
  · intro s hs v hv
    have hmem : npRoundTo p v ∈ g.get_vertices p := by
      rw [GridLine.get_vertices, mem_uniqueSorted]
      refine List.mem_flatten.mpr ⟨s.vertices.map (npRoundTo p), ?_, ?_⟩
      · exact List.mem_map_of_mem _ hs
      · exact List.mem_map_of_mem _ hv
    have hnd : (g.get_vertices p).Nodup := by
      rw [GridLine.get_vertices]
      exact uniqueSorted_nodup _
    have h1 := List.nodup_iff_count_le_one.mp hnd (npRoundTo p v)
    have h2 := List.count_pos_iff.mpr hmem
    omega

set_option maxRecDepth 8000 in
/-- Witness for C6: two uniform sub-domains sharing the boundary `3/2`
(`[1, 3/2]` and `[3/2, 2]`): `nb_divisions = 2`, `get_vertices()` is
`[1, 3/2, 2]` with three entries, and `3/2` occurs exactly once. -/
theorem C6_witness :
    (GridLine.segments ⟨some "x", [⟨[1, 3/2]⟩, ⟨[3/2, 2]⟩]⟩ ≠ []
     ∧ (∀ s ∈ GridLine.segments ⟨some "x", [⟨[1, 3/2]⟩, ⟨[3/2, 2]⟩]⟩, s.vertices ≠ [])
     ∧ (∀ s ∈ GridLine.segments ⟨some "x", [⟨[1, 3/2]⟩, ⟨[3/2, 2]⟩]⟩,
         (s.vertices.map (npRoundTo 6)).Sorted (· < ·))
     ∧ ((GridLine.segments ⟨some "x", [⟨[1, 3/2]⟩, ⟨[3/2, 2]⟩]⟩).map
           (fun s => s.vertices.map (npRoundTo 6))).Chain'
         (fun u v => u.getLast? = v.head?))
    ∧ (GridLine.nb_divisions ⟨some "x", [⟨[1, 3/2]⟩, ⟨[3/2, 2]⟩]⟩
         = ((GridLine.segments ⟨some "x", [⟨[1, 3/2]⟩, ⟨[3/2, 2]⟩]⟩).map
             Segment.nb_divisions).sum
       ∧ ((GridLine.get_vertices 6 ⟨some "x", [⟨[1, 3/2]⟩, ⟨[3/2, 2]⟩]⟩).length : ℤ)
           = GridLine.nb_divisions ⟨some "x", [⟨[1, 3/2]⟩, ⟨[3/2, 2]⟩]⟩ + 1
       ∧ (∀ s ∈ GridLine.segments ⟨some "x", [⟨[1, 3/2]⟩, ⟨[3/2, 2]⟩]⟩,
           ∀ v ∈ s.vertices,
             (GridLine.get_vertices 6 ⟨some "x", [⟨[1, 3/2]⟩, ⟨[3/2, 2]⟩]⟩).count
               (npRoundTo 6 v) = 1)) :=
  ⟨⟨by decide, by decide, by decide,
    List.chain'_cons.mpr ⟨by decide, List.chain'_singleton _⟩⟩,
   C6_gridline_amended 6 ⟨some "x", [⟨[1, 3/2]⟩, ⟨[3/2, 2]⟩]⟩
     (by decide) (by decide) (by decide)
     (List.chain'_cons.mpr ⟨by decide, List.chain'_singleton _⟩)⟩

/-! ### Round-trip support -/

/-- Splitting the concatenation of nonempty blocks at the cumulative lengths
of all blocks but the last returns the blocks themselves. -/
lemma splitCum_flatten : ∀ (bs : List (List ℚ)), bs ≠ [] →
    splitCum ((bs.map List.length).dropLast) bs.flatten = bs
  | [], h => absurd rfl h
  | [b], _ => by simp [splitCum]
  | b :: b2 :: bs2, _ => by
    have ih := splitCum_flatten (b2 :: bs2) (by simp)
    simp only [List.map_cons, List.dropLast_cons₂, List.flatten_cons, splitCum]
    rw [List.take_left, List.drop_left]
    simp only [List.map_cons, List.flatten_cons] at ih
    rw [ih]

/-- The reader's gridline loop on chunks that are nonempty and contain no 0.0
coordinate: every chunk becomes a single-segment gridline, labelled in
order. -/
lemma readGridLines_ok : ∀ (bs : List (List ℚ)) (labs : List String),
    bs.length ≤ labs.length →
    (∀ b ∈ bs, b ≠ []) → (∀ b ∈ bs, ∀ v ∈ b, v ≠ 0) →
    readGridLines bs labs
      = some (List.zipWith (fun b lab => (⟨some lab, [⟨b⟩]⟩ : GridLine)) bs labs)
  | [], labs, _, _, _ => by
    cases labs <;> rfl
  | b :: bs, [], hlen, _, _ => by simp at hlen
  | b :: bs, lab :: labs, hlen, hne, hnz => by
    have hb : b ≠ [] := hne b (by simp)
    have hall : b.all (fun v => v ≠ 0) = true := by
      rw [List.all_eq_true]
      intro v hv
      simpa using hnz b (by simp) v hv
    have hgl : gridLineFromVertices (some lab) b = some ⟨some lab, [⟨b⟩]⟩ := by
      rcases List.exists_cons_of_ne_nil hb with ⟨c, t, rfl⟩
      simp only [gridLineFromVertices, segmentFromVertices, if_pos hall]
      rfl
    rw [readGridLines, hgl,
      readGridLines_ok bs labs (by simpa using hlen)
        (fun l hl => hne l (List.mem_cons_of_mem _ hl))
        (fun l hl => hnz l (List.mem_cons_of_mem _ hl))]
    rfl

/-- Projecting a label-dependent `zipWith` through a label-independent
function is a `map`, when the label list is long enough. -/
lemma zipWith_proj {β : Type} (F : List ℚ → String → GridLine) (f : GridLine → β)
    (g : List ℚ → β) (h : ∀ b lab, f (F b lab) = g b) :
    ∀ (bs : List (List ℚ)) (labs : List String), bs.length ≤ labs.length →
      (List.zipWith F bs labs).map f = bs.map g
  | [], _, _ => by simp
  | b :: bs, [], hl => by simp at hl
  | b :: bs, lab :: labs, hl => by
    rw [List.zipWith_cons_cons, List.map_cons, List.map_cons, h,
      zipWith_proj F f g h bs labs (by simpa using hl)]

set_option maxRecDepth 8000 in
/-- Claim C1, counterexample: any populated mesh whose grid starts at
coordinate 0.0 (built here by `create` from one uniform sub-domain on
`[0, 1]`) does not round-trip.  `write` emits header `1` and vertices
`[0.0, 1.0]`; on `read`, the `numpy.all` guard of the rebuilt gridline is
false because of the 0.0 coordinate, so the gridline comes back with no
segments and `nb_divisions = 0 ≠ 1`, and no vertex array is reproduced. -/
theorem C1_counterexample :
    CartesianStructuredMesh.create lqZero 1 [("x", 0, [{ end_ := 1, width := 1 }])]
      = some ⟨[⟨some "x", [⟨[0, 1]⟩]⟩]⟩
    ∧ CartesianStructuredMesh.write 6 ⟨[⟨some "x", [⟨[0, 1]⟩]⟩]⟩ = ([1], [0, 1])
    ∧ (CartesianStructuredMesh.read [1] [0, 1]).map
        (fun m2 => m2.gridlines.map GridLine.nb_divisions) = some [0]
    ∧ ([0] : List ℤ) ≠ [1] := by
  refine ⟨by decide, by decide, by decide, by decide⟩

/-- Claim C1 (amended): `write` then `read` reproduces, per direction and in
the same order, identical vertex arrays (the deduplicated rounded vertices
that were written) and identical division counts, for every populated mesh of
at most three directions whose written data is benign for the reader: each
gridline's deduplicated rounded vertex list has exactly `nb_divisions + 1`
entries (no rounding merges beyond the shared boundaries, cf. C6), is
nonempty, and contains no 0.0 coordinate (cf. C10). -/
theorem C1_roundtrip_amended (p : ℕ) (m : CartesianStructuredMesh)
    (hpop : m.gridlines ≠ [])
    (hdir : m.gridlines.length ≤ 3)
    (hlen : ∀ g ∈ m.gridlines, ((g.get_vertices p).length : ℤ) = g.nb_divisions + 1)
    (hvne : ∀ g ∈ m.gridlines, g.get_vertices p ≠ [])
    (hnz : ∀ g ∈ m.gridlines, ∀ v ∈ g.get_vertices p, v ≠ 0) :
    (CartesianStructuredMesh.read (CartesianStructuredMesh.write p m).1
        (CartesianStructuredMesh.write p m).2).map
      (fun m2 => (m2.gridlines.map (fun g => (g.segments.map Segment.vertices).flatten),
                  m2.gridlines.map GridLine.nb_divisions))
    = some (m.gridlines.map (GridLine.get_vertices p),
            m.gridlines.map GridLine.nb_divisions) := by
  set blocks := m.gridlines.map (GridLine.get_vertices p) with hblocks
  have hbne : ∀ b ∈ blocks, b ≠ [] := by
    intro b hb
    rcases List.mem_map.mp hb with ⟨g, hg, rfl⟩
    exact hvne g hg
  have hbnz : ∀ b ∈ blocks, ∀ v ∈ b, v ≠ 0 := by
    intro b hb
    rcases List.mem_map.mp hb with ⟨g, hg, rfl⟩
    exact hnz g hg
  have hbpop : blocks ≠ [] := by
    rw [hblocks]
    simpa using hpop
  have hsizes : ((m.gridlines.map GridLine.nb_divisions).dropLast).map
        (fun n => (n + 1).toNat)
      = (blocks.map List.length).dropLast := by
    rw [hblocks, List.map_map, ← List.map_dropLast, ← List.map_dropLast, List.map_map]
    refine List.map_congr_left ?_
    intro g hg
    have h1 := hlen g ((List.dropLast_sublist _).subset hg)
    simp only [Function.comp_apply]
    omega
  have hsplit : splitCum (((m.gridlines.map GridLine.nb_divisions).dropLast).map
      (fun n => (n + 1).toNat)) blocks.flatten = blocks := by
    rw [hsizes]
    exact splitCum_flatten blocks hbpop
  have hlabs : blocks.length ≤ (["x", "y", "z"] : List String).length := by
    rw [hblocks]
    simpa using hdir
  have hread := readGridLines_ok blocks ["x", "y", "z"] hlabs hbne hbnz
  show (CartesianStructuredMesh.read (m.gridlines.map GridLine.nb_divisions)
      blocks.flatten).map _ = _
  rw [CartesianStructuredMesh.read, hsplit, hread]
  simp only [Option.map_some']
  refine congrArg some (Prod.ext ?_ ?_)
  · exact (zipWith_proj (fun b lab => ⟨some lab, [⟨b⟩]⟩)
      (fun g => (g.segments.map Segment.vertices).flatten) (fun b => b)
      (fun b lab => by simp) blocks _ hlabs).trans (List.map_id' blocks)
  · rw [zipWith_proj (fun b lab => ⟨some lab, [⟨b⟩]⟩) GridLine.nb_divisions
      (fun b => (b.length : ℤ) - 1)
      (fun b lab => by simp [GridLine.nb_divisions, Segment.nb_divisions])
      blocks _ hlabs, hblocks, List.map_map]
    refine List.map_congr_left ?_
    intro g hg
    have h1 := hlen g hg
    simp only [Function.comp_apply]
    omega

set_option maxRecDepth 8000 in
/-- Witness for C1: a two-direction mesh with gridlines `[1, 2]` and
`[1, 3, 5]` (nonzero, strictly increasing): write emits `([1, 2],
[1, 2, 1, 3, 5])` and read rebuilds the same vertex arrays and counts. -/
theorem C1_witness :
    (CartesianStructuredMesh.gridlines
        ⟨[⟨some "x", [⟨[1, 2]⟩]⟩, ⟨some "y", [⟨[1, 3, 5]⟩]⟩]⟩ ≠ []
     ∧ (CartesianStructuredMesh.gridlines
          ⟨[⟨some "x", [⟨[1, 2]⟩]⟩, ⟨some "y", [⟨[1, 3, 5]⟩]⟩]⟩).length ≤ 3
     ∧ (∀ g ∈ CartesianStructuredMesh.gridlines
          ⟨[⟨some "x", [⟨[1, 2]⟩]⟩, ⟨some "y", [⟨[1, 3, 5]⟩]⟩]⟩,
         ((g.get_vertices 6).length : ℤ) = g.nb_divisions + 1)
     ∧ (∀ g ∈ CartesianStructuredMesh.gridlines
          ⟨[⟨some "x", [⟨[1, 2]⟩]⟩, ⟨some "y", [⟨[1, 3, 5]⟩]⟩]⟩,
         g.get_vertices 6 ≠ [])
     ∧ (∀ g ∈ CartesianStructuredMesh.gridlines
          ⟨[⟨some "x", [⟨[1, 2]⟩]⟩, ⟨some "y", [⟨[1, 3, 5]⟩]⟩]⟩,
         ∀ v ∈ g.get_vertices 6, v ≠ 0))
    ∧ (CartesianStructuredMesh.read
          (CartesianStructuredMesh.write 6
            ⟨[⟨some "x", [⟨[1, 2]⟩]⟩, ⟨some "y", [⟨[1, 3, 5]⟩]⟩]⟩).1
          (CartesianStructuredMesh.write 6
            ⟨[⟨some "x", [⟨[1, 2]⟩]⟩, ⟨some "y", [⟨[1, 3, 5]⟩]⟩]⟩).2).map
        (fun m2 => (m2.gridlines.map (fun g => (g.segments.map Segment.vertices).flatten),
                    m2.gridlines.map GridLine.nb_divisions))
      = some ((CartesianStructuredMesh.gridlines
            ⟨[⟨some "x", [⟨[1, 2]⟩]⟩, ⟨some "y", [⟨[1, 3, 5]⟩]⟩]⟩).map
              (GridLine.get_vertices 6),
          (CartesianStructuredMesh.gridlines
            ⟨[⟨some "x", [⟨[1, 2]⟩]⟩, ⟨some "y", [⟨[1, 3, 5]⟩]⟩]⟩).map
              GridLine.nb_divisions) :=
  ⟨⟨by decide, by decide, by decide, by decide, by decide⟩,
   C1_roundtrip_amended 6 ⟨[⟨some "x", [⟨[1, 2]⟩]⟩, ⟨some "y", [⟨[1, 3, 5]⟩]⟩]⟩
     (by decide) (by decide) (by decide) (by decide) (by decide)⟩

end CartesianMesh
